import Mathlib

/-!
Shallow embedding of the static-site build pipeline (`src/build.py`) of the
repository: catalog loading, index building, related-works resolution,
pagination, search-index projection, key-name sanitization and site emission,
together with theorems settling the frozen claims about this program.

Python strings are modelled by Lean `String`; Python string comparison
(code-point lexicographic) is modelled by `lexLe` on the character list.
Python dicts built by `setdefault(...).append(...)` are modelled by
association lists with insertion order (`dictAppend`), and dicts used purely
for lookup with last-assignment-wins are modelled by `find?` on the reversed
build order.  Missing JSON fields are `Option.none`; `x or default` on falsy
values coincides with `Option.getD` for the string/list typed fields.
-/

namespace Build

/-- Code-point lexicographic comparison of character lists: the order Python
uses to compare `str` values (`sorted`, `<=`). -/
def lexLe : List Char → List Char → Bool
  | [], _ => true
  | _ :: _, [] => false
  | a :: as, b :: bs =>
    if a.toNat < b.toNat then true
    else if b.toNat < a.toNat then false
    else lexLe as bs

/-- Python `<=` on strings. -/
def strLe (a b : String) : Bool := lexLe a.data b.data

theorem lexLe_total : ∀ (a b : List Char), lexLe a b = true ∨ lexLe b a = true := by
  intro a
  induction a with
  | nil => intro b; left; rfl
  | cons x xs ih =>
    intro b
    cases b with
    | nil => right; rfl
    | cons y ys =>
      simp only [lexLe]
      rcases Nat.lt_trichotomy x.toNat y.toNat with h | h | h
      · left; simp [h]
      · have h1 : ¬ x.toNat < y.toNat := by omega
        have h2 : ¬ y.toNat < x.toNat := by omega
        rcases ih ys with hl | hr
        · left; simp [h1, h2, hl]
        · right; simp [h1, h2, hr]
      · right; simp [h]

theorem lexLe_cons_iff (x y : Char) (xs ys : List Char) :
    lexLe (x :: xs) (y :: ys) = true ↔
      x.toNat < y.toNat ∨ (x.toNat = y.toNat ∧ lexLe xs ys = true) := by
  simp only [lexLe]
  by_cases h1 : x.toNat < y.toNat
  · simp [h1]
  · by_cases h2 : y.toNat < x.toNat
    · simp [h1, h2]; omega
    · have : x.toNat = y.toNat := by omega
      simp [h1, h2, this]

theorem lexLe_trans : ∀ (a b c : List Char),
    lexLe a b = true → lexLe b c = true → lexLe a c = true := by
  intro a
  induction a with
  | nil => intro b c _ _; rfl
  | cons x xs ih =>
    intro b c hab hbc
    cases b with
    | nil => simp [lexLe] at hab
    | cons y ys =>
      cases c with
      | nil => simp [lexLe] at hbc
      | cons z zs =>
        rw [lexLe_cons_iff] at hab hbc ⊢
        rcases hab with h1 | ⟨h1, h1l⟩ <;> rcases hbc with h2 | ⟨h2, h2l⟩
        · left; omega
        · left; omega
        · left; omega
        · right; exact ⟨by omega, ih ys zs h1l h2l⟩

/-- One catalog record (`works[i]` in `works.json`), with every field
optional exactly as a Python dict field may be absent.  `hero_image` is the
nullable field of the data model. -/
structure Work where
  id : Option String := none
  title : Option String := none
  description : Option String := none
  release_date : Option String := none
  official_url : Option String := none
  hero_image : Option String := none
  actresses : Option (List String) := none
  tags : Option (List String) := none
deriving DecidableEq

/-- Python `str(w.get("id") or "")` for a string-typed id field: absent and
empty both give the empty string. -/
def idStr (w : Work) : String := w.id.getD ""

/-- Python `w.get("actresses") or []`. -/
def actressesOf (w : Work) : List String := w.actresses.getD []

/-- Python `w.get("tags") or []`. -/
def tagsOf (w : Work) : List String := w.tags.getD []

/-- Python `w.get("release_date") or ""` (the sort key of the pipeline). -/
def dateOf (w : Work) : String := w.release_date.getD ""

/-- Insert `x` into `l` before the first element `y` with `le x y`.  Used by
`sortBy`. -/
def insertBy (le : α → α → Bool) (x : α) : List α → List α
  | [] => [x]
  | y :: ys => if le x y then x :: y :: ys else y :: insertBy le x ys

/-- Stable sort with respect to the total preorder decided by `le`.  A stable
sort's output is uniquely determined by the preorder and the input order, so
this models Python `list.sort` exactly, for any comparator-equivalent
implementation. -/
def sortBy (le : α → α → Bool) : List α → List α
  | [] => []
  | x :: xs => insertBy le x (sortBy le xs)

theorem insertBy_perm (le : α → α → Bool) (x : α) :
    ∀ l : List α, (insertBy le x l).Perm (x :: l) := by
  intro l
  induction l with
  | nil => exact List.Perm.refl _
  | cons y ys ih =>
    simp only [insertBy]
    by_cases h : le x y = true
    · simp [h]
    · simp only [h, if_false, Bool.false_eq_true]
      exact (ih.cons y).trans (List.Perm.swap x y ys)

theorem sortBy_perm (le : α → α → Bool) : ∀ l : List α, (sortBy le l).Perm l := by
  intro l
  induction l with
  | nil => exact List.Perm.refl _
  | cons x xs ih => exact (insertBy_perm le x (sortBy le xs)).trans (ih.cons x)

theorem mem_insertBy (le : α → α → Bool) (x z : α) (l : List α) :
    z ∈ insertBy le x l ↔ z = x ∨ z ∈ l := by
  rw [(insertBy_perm le x l).mem_iff, List.mem_cons]

theorem insertBy_sorted (le : α → α → Bool)
    (htrans : ∀ a b c, le a b = true → le b c = true → le a c = true)
    (htotal : ∀ a b, le a b = true ∨ le b a = true) (x : α) :
    ∀ l : List α, l.Pairwise (fun a b => le a b = true) →
      (insertBy le x l).Pairwise (fun a b => le a b = true) := by
  intro l
  induction l with
  | nil => intro _; simp [insertBy]
  | cons y ys ih =>
    intro hp
    rw [List.pairwise_cons] at hp
    simp only [insertBy]
    by_cases h : le x y = true
    · rw [if_pos h, List.pairwise_cons]
      refine ⟨?_, List.pairwise_cons.mpr hp⟩
      intro z hz
      rcases List.mem_cons.mp hz with rfl | hz2
      · exact h
      · exact htrans x y z h (hp.1 z hz2)
    · rw [if_neg h, List.pairwise_cons]
      refine ⟨?_, ih hp.2⟩
      intro z hz
      rcases (mem_insertBy le x z ys).mp hz with rfl | hz2
      · rcases htotal z y with hc | hc
        · exact absurd hc h
        · exact hc
      · exact hp.1 z hz2

theorem sortBy_sorted (le : α → α → Bool)
    (htrans : ∀ a b c, le a b = true → le b c = true → le a c = true)
    (htotal : ∀ a b, le a b = true ∨ le b a = true) :
    ∀ l : List α, (sortBy le l).Pairwise (fun a b => le a b = true) := by
  intro l
  induction l with
  | nil => simp [sortBy]
  | cons x xs ih => exact insertBy_sorted le htrans htotal x (sortBy le xs) ih

/-- Stable descending sort by a string key: Python
`list.sort(key=..., reverse=True)`, which keeps the original relative order
of equal keys. -/
def sortDescBy (key : α → String) (l : List α) : List α :=
  sortBy (fun x y => strLe (key y) (key x)) l

/-- Function `sort_works_newest_first` of `build.py`. -/
def sort_works_newest_first (works : List Work) : List Work :=
  sortDescBy dateOf works

/-- Fuel-indexed helper realizing the loop of `chunk`; the fuel is an upper
bound on the number of remaining elements. -/
def chunkGo (size : Nat) : Nat → List α → List (List α)
  | _, [] => []
  | 0, _ :: _ => []
  | fuel + 1, x :: xs => (x :: xs).take size :: chunkGo size fuel ((x :: xs).drop size)

/-- Function `chunk` of `build.py`:
`[items[i:i+size] for i in range(0, len(items), size)]`.  The `size = 0`
guard totalizes the model (Python raises there); the program only calls it
with `size = 50`. -/
def chunk (items : List α) (size : Nat) : List (List α) :=
  if size = 0 then [] else chunkGo size items.length items

theorem chunkGo_congr (size : Nat) (hs : 0 < size) :
    ∀ fuel1 fuel2 (items : List α), items.length ≤ fuel1 → items.length ≤ fuel2 →
      chunkGo size fuel1 items = chunkGo size fuel2 items := by
  intro fuel1
  induction fuel1 with
  | zero =>
    intro fuel2 items h1 _
    have : items = [] := List.length_eq_zero.mp (Nat.le_zero.mp h1)
    subst this
    cases fuel2 <;> rfl
  | succ f ihf =>
    intro fuel2 items h1 h2
    cases items with
    | nil => cases fuel2 <;> rfl
    | cons x xs =>
      cases fuel2 with
      | zero => simp at h2
      | succ g =>
        simp only [chunkGo]
        congr 1
        apply ihf
        · simp only [List.length_drop, List.length_cons] at *
          omega
        · simp only [List.length_drop, List.length_cons] at *
          omega

theorem chunk_nil (size : Nat) : chunk ([] : List α) size = [] := by
  by_cases h : size = 0 <;> simp [chunk, chunkGo, h]

theorem chunk_cons (size : Nat) (hs : 0 < size) (items : List α) (h : items ≠ []) :
    chunk items size = items.take size :: chunk (items.drop size) size := by
  obtain ⟨x, xs, rfl⟩ := List.exists_cons_of_ne_nil h
  simp only [chunk, if_neg (Nat.pos_iff_ne_zero.mp hs)]
  simp only [List.length_cons, chunkGo]
  congr 1
  apply chunkGo_congr size hs
  · simp only [List.length_drop, List.length_cons]; omega
  · exact Nat.le_refl _

/-- ASCII whitespace stripped by Python `str.strip()` (space, tab, newline,
carriage return, vertical tab, form feed). -/
def pyStripChars : List Char := [' ', '\t', '\n', '\r', Char.ofNat 11, Char.ofNat 12]

def isStripChar (c : Char) : Bool := pyStripChars.contains c

/-- Python `s.strip()` restricted to ASCII whitespace. -/
def pyStrip (s : String) : String :=
  String.mk (((s.data.dropWhile isStripChar).reverse.dropWhile isStripChar).reverse)

/-- Python `s.replace(ch, "_")` for a single character `ch`. -/
def replaceWithUnderscore (s : String) (c : Char) : String :=
  String.mk (s.data.map (fun x => if x = c then '_' else x))

/-- The characters `build.py` treats as illegal in a path segment. -/
def badChars : List Char := ['\\', '/', ':', '*', '?', '"', '<', '>', '|']

/-- Function `slugify_simple` of `build.py`: strip, replace each illegal
character with an underscore, replace spaces with underscores, and fall back
to the literal string for an empty result. -/
def slugify_simple (s : String) : String :=
  let t1 := pyStrip s
  let t2 := badChars.foldl replaceWithUnderscore t1
  let t3 := replaceWithUnderscore t2 ' '
  if t3 = "" then "unknown" else t3

/-- A Python dict from string keys to lists of works, as an association list
in key insertion order. -/
abbrev Buckets := List (String × List Work)

/-- Dict lookup (`d.get(k)`). -/
def dictGet (d : Buckets) (k : String) : Option (List Work) :=
  (d.find? (fun p => p.1 == k)).map Prod.snd

/-- Dict lookup with default (`d.get(k, [])`). -/
def bucketOf (d : Buckets) (k : String) : List Work := (dictGet d k).getD []

/-- Python `d.setdefault(k, []).append(w)`: append to the existing bucket, or
create the bucket at the end of the insertion order. -/
def dictAppend (d : Buckets) (k : String) (w : Work) : Buckets :=
  if (d.find? (fun p => p.1 == k)).isSome then
    d.map (fun p => if p.1 == k then (p.1, p.2 ++ [w]) else p)
  else d ++ [(k, [w])]

/-- Function `build_indexes_from_works` of `build.py`: one linear pass
bucketing each work under each of its performer names and each of its tags,
returning both maps together with their sorted key lists. -/
def build_indexes_from_works (works : List Work) :
    Buckets × List String × Buckets × List String :=
  let m := works.foldl
    (fun acc w =>
      ((actressesOf w).foldl (fun d a => dictAppend d a w) acc.1,
       (tagsOf w).foldl (fun d g => dictAppend d g w) acc.2))
    (([] : Buckets), ([] : Buckets))
  (m.1, sortBy strLe (m.1.map Prod.fst), m.2, sortBy strLe (m.2.map Prod.fst))

/-- A JSON value, the shape `json.loads` produces. -/
inductive JVal where
  | jnull : JVal
  | jbool : Bool → JVal
  | jnum : Int → JVal
  | jstr : String → JVal
  | jarr : List JVal → JVal
  | jobj : List (String × JVal) → JVal

/-- The search record `make_search_index` builds for one work: exactly seven
fields, with falsy strings coerced to `""` and falsy lists to `[]`. -/
def toSearchRecord (w : Work) : JVal :=
  JVal.jobj [("id", JVal.jstr (idStr w)),
    ("title", JVal.jstr (w.title.getD "")),
    ("release_date", JVal.jstr (dateOf w)),
    ("hero_image", JVal.jstr (w.hero_image.getD "")),
    ("official_url", JVal.jstr (w.official_url.getD "")),
    ("actresses", JVal.jarr ((actressesOf w).map JVal.jstr)),
    ("tags", JVal.jarr ((tagsOf w).map JVal.jstr))]

/-- Function `make_search_index` of `build.py`: keep input order, skip works
with a falsy id, project each kept work to its search record. -/
def make_search_index (works : List Work) : List JVal :=
  works.filterMap (fun w => if idStr w = "" then none else some (toSearchRecord w))

def objFields : JVal → List (String × JVal)
  | .jobj fs => fs
  | _ => []

def objKeys (v : JVal) : List String := (objFields v).map Prod.fst

/-- The dict `works_by_id` of `main`: keys are works with truthy id, later
assignments overwrite earlier ones, so lookup finds the last work in build
order with the given id. -/
def works_by_id (works : List Work) (wid : String) : Option Work :=
  ((works.filter (fun w => idStr w != "")).reverse).find? (fun w => idStr w == wid)

/-- The dict `actress_to_ids` of `main`: for performer `a`, the ids appended
while scanning the works in order, one per occurrence of `a` in a work's
performer list, skipping works with falsy id and falsy performer names. -/
def actress_to_ids (works : List Work) (a : String) : List String :=
  works.flatMap (fun w =>
    if idStr w = "" then []
    else ((actressesOf w).filter (fun x => x != "" && x == a)).map (fun _ => idStr w))

/-- The inner dedupe loop of `get_related_works`: append each id of `ids`
that is neither the current id nor already collected. -/
def dedupAppend (cur : String) (acc ids : List String) : List String :=
  ids.foldl (fun acc2 wid =>
    if wid = cur then acc2
    else if wid ∈ acc2 then acc2 else acc2 ++ [wid]) acc

/-- The full candidate id list of `get_related_works`: scan the current
work's performers in order, and each performer's id list in build order. -/
def relatedIds (works : List Work) (current : Work) : List String :=
  (actressesOf current).foldl
    (fun acc a => dedupAppend (idStr current) acc (actress_to_ids works a)) []

/-- Function `get_related_works` of `build.py` (closure over the maps built
from `works`): empty performer list short-circuits to the empty list,
otherwise collect candidate ids, look them up, stable-sort by release date
descending and truncate. -/
def get_related_works (works : List Work) (current : Work) (limit : Nat) : List Work :=
  if actressesOf current = [] then []
  else (sortDescBy dateOf
    ((relatedIds works current).filterMap (works_by_id works))).take limit

/-- Error conditions of the load-and-extract phase of `main`:
`FileNotFoundError` from `load_json`, `AttributeError` from calling `.get`
on a non-dict or keying a non-dict element, `TypeError` from iterating a
non-iterable. -/
inductive LoadErr where
  | notFound : LoadErr
  | attributeError : LoadErr
  | typeError : LoadErr
deriving DecidableEq

/-- Function `load_json` of `build.py`: raise `FileNotFoundError` when the
document is absent, otherwise return the parsed JSON as is. -/
def load_json (doc : Option JVal) : Except LoadErr JVal :=
  match doc with
  | none => Except.error LoadErr.notFound
  | some v => Except.ok v

def isJObj : JVal → Bool
  | .jobj _ => true
  | _ => false

/-- Python `data.get(k, dflt)`: raises `AttributeError` unless `data` is a
dict; duplicate JSON keys resolve to the last occurrence, as in
`json.loads`. -/
def objGet (v : JVal) (k : String) (dflt : JVal) : Except LoadErr JVal :=
  match v with
  | .jobj fs => Except.ok ((((fs.reverse).find? (fun p => p.1 == k)).map Prod.snd).getD dflt)
  | _ => Except.error LoadErr.attributeError

/-- Lines 102 to 104 of `build.py`: load the document, then read `site_name`
(default the literal Catalog) and `works` (default the empty list) off the
top-level value with Python attribute semantics. -/
def loadCatalog (doc : Option JVal) : Except LoadErr (JVal × JVal) := do
  let data ← load_json doc
  let site ← objGet data "site_name" (JVal.jstr "Catalog")
  let works ← objGet data "works" (JVal.jarr [])
  pure (site, works)

/-- What `sorted(works, key=lambda x: ...)` does to a non-list `works` value
before any per-element logic runs: a list iterates; a nonempty string or
dict iterates into elements on which the key function raises
`AttributeError` (empty ones vacuously give the empty list); anything else
is not iterable and raises `TypeError`. -/
def coerceWorksList : JVal → Except LoadErr (List JVal)
  | .jarr xs => Except.ok xs
  | .jstr s => if s = "" then Except.ok [] else Except.error LoadErr.attributeError
  | .jobj fs => if fs.isEmpty then Except.ok [] else Except.error LoadErr.attributeError
  | _ => Except.error LoadErr.typeError

/-- Python `env.get_template(name)` over an abstract template environment:
the error carries the name whose resolution failed, which identifies the
exception that propagates. -/
def get_template (env : String → Option α) (name : String) : Except String α :=
  match env name with
  | some t => Except.ok t
  | none => Except.error name

/-- Function `safe_template` of `build.py`: try the primary; on failure, if
a truthy fallback name is configured, resolve the fallback (whose own
failure, if any, is what propagates), otherwise re-raise the original. -/
def safe_template (env : String → Option α) (name : String) (fallback : Option String) :
    Except String α :=
  match get_template env name with
  | Except.ok t => Except.ok t
  | Except.error e =>
    match fallback with
    | none => Except.error e
    | some f => if f = "" then Except.error e else get_template env f

/-- The data record handed to the template renderer for one output page,
keeping exactly the run-dependent arguments of each `render` call in `main`
(constant keyword arguments such as css paths and nav hrefs are omitted as
literals). -/
inductive PageData where
  | top : String → List Work → List String → List String → PageData
  | searchPage : String → PageData
  | listing : String → String → List Work → Nat → Nat → Option String → Option String → PageData
  | workPage : String → Work → List Work → PageData
  | nameIndex : String → List (String × String) → PageData
  | bucketPage : String → List Work → PageData

/-- The content written to one output path: a rendered template applied to
its data record, or a JSON document. -/
inductive FileContent where
  | html : String → PageData → FileContent
  | json : JVal → FileContent

/-- Function `main` of `build.py` as the output tree it writes, in write
order: search JSON, home page, search page, paginated listing, per-work
pages, performer index and per-performer pages, genre index and per-genre
pages.  The `_now` parameter stands for ambient run state (wall clock); the
source reads no clock, so it is unused. -/
def emitSite (site_name : String) (works : List Work) (_now : Nat) :
    List (List String × FileContent) :=
  let ws := sort_works_newest_first works
  let idx := build_indexes_from_works ws
  let actresses_map := idx.1
  let actresses_keys := idx.2.1
  let genres_map := idx.2.2.1
  let genres_keys := idx.2.2.2
  let pages := chunk ws 50
  let total_pages := max 1 pages.length
  [(["assets", "works_index.json"], FileContent.json (JVal.jarr (make_search_index ws))),
   (["index.html"], FileContent.html "index.html"
     (PageData.top site_name (ws.take 100) actresses_keys genres_keys)),
   (["search", "index.html"], FileContent.html "search.html" (PageData.searchPage site_name))]
  ++ ((pages.enumFrom 1).map (fun p =>
    (["pages", toString p.1, "index.html"],
      FileContent.html "list_works.html"
        (PageData.listing site_name
          ("全作品（" ++ toString p.1 ++ "/" ++ toString total_pages ++ "）")
          p.2 p.1 total_pages
          (if p.1 > 1 then some ("../" ++ toString (p.1 - 1) ++ "/") else none)
          (if p.1 < total_pages then some ("../" ++ toString (p.1 + 1) ++ "/") else none)))))
  ++ (ws.filterMap (fun w =>
    if idStr w = "" then none
    else some (["works", idStr w, "index.html"],
      FileContent.html "page.html"
        (PageData.workPage site_name w (get_related_works ws w 12)))))
  ++ [(["actresses", "index.html"], FileContent.html "list_works.html"
    (PageData.nameIndex site_name
      (actresses_keys.map (fun a => (a, "./" ++ slugify_simple a ++ "/")))))]
  ++ (actresses_keys.map (fun a =>
    (["actresses", slugify_simple a, "index.html"],
      FileContent.html "index.html" (PageData.bucketPage site_name (bucketOf actresses_map a)))))
  ++ [(["genres", "index.html"], FileContent.html "list_works.html"
    (PageData.nameIndex site_name
      (genres_keys.map (fun g => (g, "./" ++ slugify_simple g ++ "/")))))]
  ++ (genres_keys.map (fun g =>
    (["genres", slugify_simple g, "index.html"],
      FileContent.html "index.html" (PageData.bucketPage site_name (bucketOf genres_map g)))))

/-- The id field of an emitted search record. -/
def recordId (v : JVal) : Option JVal :=
  ((objFields v).find? (fun p => p.1 == "id")).map Prod.snd

/-- Example work with absent id listing performer A. -/
def exNoId : Work := { id := none, actresses := some ["A"] }

/-- Example work listing the same performer twice. -/
def exDup : Work := { id := some "W1", actresses := some ["A", "A"] }

/-- Example work a, oldest, shares performer P. -/
def exA : Work :=
  { id := some "a", release_date := some "2020-01-01", actresses := some ["P"] }

/-- Example work b, newest, shares performer P. -/
def exB : Work :=
  { id := some "b", release_date := some "2021-01-01", actresses := some ["P"] }

/-- Example work c, empty release date, shares performer P. -/
def exC : Work :=
  { id := some "c", release_date := none, actresses := some ["P"] }

theorem mem_data_replaceWithUnderscore (s : String) (ch c : Char)
    (h : c ∈ (replaceWithUnderscore s ch).data) : c = '_' ∨ (c ∈ s.data ∧ c ≠ ch) := by
  rcases List.mem_map.mp h with ⟨x, hx, hxe⟩
  by_cases hxc : x = ch
  · left; rw [← hxe, hxc]; simp
  · right
    rw [← hxe]
    simp only [hxc, if_false, if_neg]
    exact ⟨hx, hxc⟩

theorem mem_data_foldl_repl (cs : List Char) (t : String) (c : Char)
    (h : c ∈ (cs.foldl replaceWithUnderscore t).data) :
    c = '_' ∨ (c ∈ t.data ∧ c ∉ cs) := by
  induction cs generalizing t with
  | nil => right; exact ⟨h, by simp⟩
  | cons x rest ih =>
    rw [List.foldl_cons] at h
    rcases ih (replaceWithUnderscore t x) h with h1 | ⟨h2, h3⟩
    · left; exact h1
    · rcases mem_data_replaceWithUnderscore t x c h2 with h4 | ⟨h5, h6⟩
      · left; exact h4
      · right; exact ⟨h5, by simp [h6, h3]⟩

/-- Claim C2, corrected: `slugify_simple` replaces (does not strip) each
illegal character and each space with an underscore; only a name that strips
to the empty string maps to the fallback, so the empty string sanitizes to
the fallback but a string of illegal characters sanitizes to underscores.
The result is never empty and never contains an illegal character or a
space. -/
theorem slugify_simple_spec :
    slugify_simple "" = "unknown" ∧
    slugify_simple "???" = "___" ∧
    (∀ s : String, slugify_simple s ≠ "" ∧
      ∀ c ∈ (slugify_simple s).data, c ∉ badChars ∧ c ≠ ' ') := by
  refine ⟨by decide, by decide, fun s => ⟨?_, ?_⟩⟩
  · simp only [slugify_simple]
    split
    · decide
    · assumption
  · intro c hc
    simp only [slugify_simple] at hc
    split at hc
    · revert hc
      show c ∈ ("unknown").data → _
      intro hc
      fin_cases hc <;> decide
    · rcases mem_data_replaceWithUnderscore _ ' ' c hc with h1 | ⟨h2, h3⟩
      · subst h1; decide
      · rcases mem_data_foldl_repl badChars _ c h2 with h4 | ⟨_, h6⟩
        · subst h4; decide
        · exact ⟨h6, h3⟩

/-- Claim C2 counterexample: sanitizing the all-illegal string does not give
the fallback; each illegal character becomes an underscore instead. -/
theorem slugify_simple_c2_cex :
    slugify_simple "???" ≠ "unknown" ∧ slugify_simple "???" = "___" := by decide

/-- Claim C2 witness: the general part of the amended claim evaluated at a
concrete input. -/
theorem slugify_simple_spec_witness :
    slugify_simple "a" ≠ "" ∧ ('a' ∉ badChars ∧ 'a' ≠ ' ') :=
  ⟨(slugify_simple_spec.2.2 "a").1, (slugify_simple_spec.2.2 "a").2 'a' (by decide)⟩

/-- Claim C8, corrected: template resolution failure is fatal when no
fallback (or an empty-string fallback) is configured; a configured nonempty
fallback is substituted on primary failure; but when the fallback is itself
unresolvable, the failure that propagates is the fallback resolution
failure, not the original primary one. -/
theorem safe_template_spec {α : Type} (env : String → Option α) (name : String)
    (fb : Option String) :
    (∀ t, env name = some t → safe_template env name fb = Except.ok t) ∧
    (env name = none → fb = none → safe_template env name fb = Except.error name) ∧
    (env name = none → fb = some "" → safe_template env name fb = Except.error name) ∧
    (∀ f, env name = none → fb = some f → f ≠ "" →
      safe_template env name fb = get_template env f) := by
  refine ⟨?_, ?_, ?_, ?_⟩
  · intro t h; simp [safe_template, get_template, h]
  · intro h1 h2; subst h2; simp [safe_template, get_template, h1]
  · intro h1 h2; subst h2; simp [safe_template, get_template, h1]
  · intro f h1 h2 h3; subst h2; simp [safe_template, get_template, h1, h3]

/-- Claim C8 counterexample: with both the primary and the fallback
unresolvable, the propagated failure names the fallback, not the primary. -/
theorem safe_template_c8_cex :
    safe_template (fun _ => (none : Option Nat)) "primary" (some "fallback") =
      Except.error "fallback" ∧ ("fallback" : String) ≠ "primary" :=
  ⟨rfl, by decide⟩

/-- Claim C8 witness: the fallback-substitution branch at a concrete
environment. -/
theorem safe_template_spec_witness :
    safe_template (fun _ => (none : Option Nat)) "a" (some "b") =
      get_template (fun _ => (none : Option Nat)) "b" :=
  (safe_template_spec (fun _ => (none : Option Nat)) "a" (some "b")).2.2.2 "b" rfl rfl
    (by decide)

/-- Claim C6, corrected: the loader fails with the not-found condition
exactly when the document is absent; but when the JSON parses and the top
level is not an object, the run aborts with an attribute error instead of
recovering to an empty catalog, and a present non-sequence `works` value
generally aborts as well (only the vacuous empty-string and empty-object
cases iterate to nothing). -/
theorem loadCatalog_spec (doc : Option JVal) :
    (loadCatalog doc = Except.error LoadErr.notFound ↔ doc = none) ∧
    (∀ v, doc = some v → isJObj v = false →
      loadCatalog doc = Except.error LoadErr.attributeError) ∧
    (∀ xs, coerceWorksList (JVal.jarr xs) = Except.ok xs) ∧
    (∀ s, s ≠ "" → coerceWorksList (JVal.jstr s) = Except.error LoadErr.attributeError) ∧
    (coerceWorksList JVal.jnull = Except.error LoadErr.typeError) := by
  refine ⟨?_, ?_, fun xs => rfl, ?_, rfl⟩
  · cases doc with
    | none => exact ⟨fun _ => rfl, fun _ => rfl⟩
    | some v =>
      constructor
      · intro h
        exfalso
        cases v with
        | jobj fs => exact Except.noConfusion h
        | jnull =>
          have h2 : Except.error (α := JVal × JVal) LoadErr.attributeError =
              Except.error LoadErr.notFound := h
          exact LoadErr.noConfusion (Except.error.inj h2)
        | jbool b =>
          have h2 : Except.error (α := JVal × JVal) LoadErr.attributeError =
              Except.error LoadErr.notFound := h
          exact LoadErr.noConfusion (Except.error.inj h2)
        | jnum n =>
          have h2 : Except.error (α := JVal × JVal) LoadErr.attributeError =
              Except.error LoadErr.notFound := h
          exact LoadErr.noConfusion (Except.error.inj h2)
        | jstr s =>
          have h2 : Except.error (α := JVal × JVal) LoadErr.attributeError =
              Except.error LoadErr.notFound := h
          exact LoadErr.noConfusion (Except.error.inj h2)
        | jarr xs =>
          have h2 : Except.error (α := JVal × JVal) LoadErr.attributeError =
              Except.error LoadErr.notFound := h
          exact LoadErr.noConfusion (Except.error.inj h2)
      · intro h; cases h
  · intro v hv hobj
    subst hv
    cases v with
    | jobj fs => simp [isJObj] at hobj
    | jnull => rfl
    | jbool b => rfl
    | jnum n => rfl
    | jstr s => rfl
    | jarr xs => rfl
  · intro s hs
    simp [coerceWorksList, hs]

/-- Claim C6 counterexample: a top-level JSON array is parsed JSON with a
non-object top level, and the run fails with an attribute error instead of
coercing to an empty catalog. -/
theorem loadCatalog_c6_cex :
    loadCatalog (some (JVal.jarr [])) = Except.error LoadErr.attributeError := rfl

/-- Claim C6 witness: the non-object branch of the amended claim at a
concrete document. -/
theorem loadCatalog_spec_witness :
    loadCatalog (some (JVal.jstr "oops")) = Except.error LoadErr.attributeError :=
  (loadCatalog_spec (some (JVal.jstr "oops"))).2.1 (JVal.jstr "oops") rfl rfl

theorem make_search_index_eq (works : List Work) :
    make_search_index works = (works.filter (fun w => idStr w != "")).map toSearchRecord := by
  induction works with
  | nil => rfl
  | cons w ws ih =>
    simp only [make_search_index, List.filterMap_cons, List.filter_cons] at *
    by_cases h : idStr w = ""
    · have hb : (idStr w != "") = false := by simp [h]
      simp [h, hb, ih]
    · have hb : (idStr w != "") = true := by simp [h]
      simp [h, hb, ih]

/-- Claim C7: the search projection keeps the input order, excludes exactly
the works with a falsy id, emits for each kept work the record with the id
field of that work, and no emitted record carries a description field. -/
theorem make_search_index_spec (works : List Work) :
    make_search_index works = (works.filter (fun w => idStr w != "")).map toSearchRecord ∧
    (make_search_index works).map recordId =
      (works.filter (fun w => idStr w != "")).map (fun w => some (JVal.jstr (idStr w))) ∧
    (∀ s, some (JVal.jstr s) ∈ (make_search_index works).map recordId ↔
      s ∈ (works.filter (fun w => idStr w != "")).map idStr) ∧
    (∀ r ∈ make_search_index works,
      objKeys r = ["id", "title", "release_date", "hero_image", "official_url",
        "actresses", "tags"] ∧ "description" ∉ objKeys r) := by
  have he := make_search_index_eq works
  refine ⟨he, ?_, ?_, ?_⟩
  · rw [he, List.map_map]
    exact List.map_congr_left (fun w _ => rfl)
  · intro s
    rw [he, List.map_map]
    constructor
    · intro hs
      rcases List.mem_map.mp hs with ⟨w, hw, hwe⟩
      have h1 : JVal.jstr (idStr w) = JVal.jstr s := Option.some.inj hwe
      exact List.mem_map.mpr ⟨w, hw, JVal.jstr.inj h1⟩
    · intro hs
      rcases List.mem_map.mp hs with ⟨w, hw, hwe⟩
      subst hwe
      exact List.mem_map.mpr ⟨w, hw, rfl⟩
  · intro r hr
    rw [he] at hr
    rcases List.mem_map.mp hr with ⟨w, _, rfl⟩
    refine ⟨rfl, ?_⟩
    have hk : objKeys (toSearchRecord w) = ["id", "title", "release_date", "hero_image",
      "official_url", "actresses", "tags"] := rfl
    rw [hk]
    decide

/-- Claim C7 witness: the per-record part of the claim at a concrete
catalog. -/
theorem make_search_index_spec_witness :
    objKeys (toSearchRecord exA) = ["id", "title", "release_date", "hero_image",
      "official_url", "actresses", "tags"] ∧
    "description" ∉ objKeys (toSearchRecord exA) :=
  (make_search_index_spec [exA]).2.2.2 (toSearchRecord exA)
    (by simp [make_search_index, exA, idStr])

/-- Claim C10: every emitted search record comes from a work with truthy id
and has no null field; the record fields are exactly the seven projected
ones, with missing or null strings coerced to the empty string and missing
or null lists to the empty list. -/
theorem search_record_fields_spec (works : List Work) :
    (∀ r ∈ make_search_index works,
      (∀ kv ∈ objFields r, kv.2 ≠ JVal.jnull) ∧
      ∃ w ∈ works, idStr w ≠ "" ∧ r = toSearchRecord w) ∧
    (∀ w : Work, objFields (toSearchRecord w) =
      [("id", JVal.jstr (idStr w)),
       ("title", JVal.jstr (w.title.getD "")),
       ("release_date", JVal.jstr (w.release_date.getD "")),
       ("hero_image", JVal.jstr (w.hero_image.getD "")),
       ("official_url", JVal.jstr (w.official_url.getD "")),
       ("actresses", JVal.jarr ((w.actresses.getD []).map JVal.jstr)),
       ("tags", JVal.jarr ((w.tags.getD []).map JVal.jstr))]) := by
  constructor
  · intro r hr
    rcases List.mem_filterMap.mp hr with ⟨w, hw, hfw⟩
    by_cases h : idStr w = ""
    · simp [h] at hfw
    · rw [if_neg h] at hfw
      have hrw := Option.some.inj hfw
      subst hrw
      refine ⟨?_, w, hw, h, rfl⟩
      intro kv hkv
      fin_cases hkv <;> simp
  · intro w; rfl

/-- Claim C10 witness: a work with null release date produces a record whose
date field is the empty string, not null. -/
theorem search_record_fields_spec_witness :
    JVal.jstr "" ≠ JVal.jnull ∧
    ∃ w ∈ [exC], idStr w ≠ "" ∧ toSearchRecord exC = toSearchRecord w := by
  have h := (search_record_fields_spec [exC]).1 (toSearchRecord exC)
    (by simp [make_search_index, exC, idStr])
  exact ⟨h.1 ("release_date", JVal.jstr "")
    (by simp [toSearchRecord, objFields, exC, dateOf]), h.2⟩

theorem strLe_total (a b : String) : strLe a b = true ∨ strLe b a = true :=
  lexLe_total a.data b.data

theorem strLe_trans (a b c : String) (h1 : strLe a b = true) (h2 : strLe b c = true) :
    strLe a c = true :=
  lexLe_trans a.data b.data c.data h1 h2

theorem dictGet_dictAppend_same (d : Buckets) (a : String) (w : Work) :
    dictGet (dictAppend d a w) a = some (bucketOf d a ++ [w]) := by
  unfold dictAppend
  cases hf : d.find? (fun p => p.1 == a) with
  | some q =>
    have hq1 : (q.1 == a) = true := by simpa using List.find?_some hf
    simp only [hf, Option.isSome_some, if_true]
    unfold dictGet
    rw [List.find?_map]
    have hcomp : ((fun p : String × List Work => p.1 == a) ∘
        (fun p : String × List Work => if p.1 == a then (p.1, p.2 ++ [w]) else p)) =
        (fun p : String × List Work => p.1 == a) := by
      funext p
      by_cases h : (p.1 == a) = true <;> simp [Function.comp, h]
    rw [hcomp, hf]
    have hqa : q.1 = a := beq_iff_eq.mp hq1
    simp [bucketOf, dictGet, hf, hqa]
  | none =>
    simp only [hf, Option.isSome_none, Bool.false_eq_true, if_false]
    unfold dictGet
    rw [List.find?_append, hf]
    simp [bucketOf, dictGet, hf, List.find?_cons]

theorem dictGet_dictAppend_other (d : Buckets) (a k : String) (w : Work) (hk : k ≠ a) :
    dictGet (dictAppend d a w) k = dictGet d k := by
  unfold dictAppend
  cases hf : d.find? (fun p => p.1 == a) with
  | some q =>
    simp only [hf, Option.isSome_some, if_true]
    unfold dictGet
    rw [List.find?_map]
    have hcomp : ((fun p : String × List Work => p.1 == k) ∘
        (fun p : String × List Work => if p.1 == a then (p.1, p.2 ++ [w]) else p)) =
        (fun p : String × List Work => p.1 == k) := by
      funext p
      by_cases h : (p.1 == a) = true <;> simp [Function.comp, h]
    rw [hcomp]
    cases hdk : d.find? (fun p => p.1 == k) with
    | none => rfl
    | some r =>
      have hr1 : (r.1 == k) = true := by simpa using List.find?_some hdk
      have hra : r.1 ≠ a := fun hc => hk ((beq_iff_eq.mp hr1).symm.trans hc)
      simp [hra]
  | none =>
    simp only [hf, Option.isSome_none, Bool.false_eq_true, if_false]
    unfold dictGet
    rw [List.find?_append]
    have hsk : List.find? (fun p : String × List Work => p.1 == k) [(a, [w])] = none := by
      simp [List.find?_cons, beq_eq_false_iff_ne, Ne.symm hk]
    rw [hsk]
    cases d.find? (fun p => p.1 == k) <;> rfl

theorem bucketOf_dictAppend (d : Buckets) (a : String) (w : Work) (k : String) :
    bucketOf (dictAppend d a w) k =
      if k = a then bucketOf d k ++ [w] else bucketOf d k := by
  by_cases hk : k = a
  · subst hk
    simp [bucketOf, dictGet_dictAppend_same]
  · simp [bucketOf, dictGet_dictAppend_other d a k w hk, hk]

theorem keys_dictAppend (d : Buckets) (a : String) (w : Work) :
    (dictAppend d a w).map Prod.fst =
      if (d.find? (fun p => p.1 == a)).isSome then d.map Prod.fst
      else d.map Prod.fst ++ [a] := by
  unfold dictAppend
  split
  · rw [List.map_map]
    apply List.map_congr_left
    intro p _
    by_cases h : (p.1 == a) = true <;> simp [Function.comp, h]
  · simp

theorem mem_keys_dictAppend (d : Buckets) (a : String) (w : Work) (k : String) :
    k ∈ (dictAppend d a w).map Prod.fst ↔ k ∈ d.map Prod.fst ∨ k = a := by
  rw [keys_dictAppend]
  split
  · rename_i hf
    rcases Option.isSome_iff_exists.mp hf with ⟨q, hq⟩
    have hq1 : (q.1 == a) = true := by simpa using List.find?_some hq
    have hqm : q ∈ d := List.mem_of_find?_eq_some hq
    have ham : a ∈ d.map Prod.fst :=
      List.mem_map.mpr ⟨q, hqm, beq_iff_eq.mp hq1⟩
    constructor
    · exact Or.inl
    · rintro (h | rfl)
      · exact h
      · exact ham
  · simp [List.mem_append]

theorem nodup_keys_dictAppend (d : Buckets) (a : String) (w : Work)
    (h : (d.map Prod.fst).Nodup) : ((dictAppend d a w).map Prod.fst).Nodup := by
  rw [keys_dictAppend]
  split
  · exact h
  · rename_i hf
    have hna : a ∉ d.map Prod.fst := by
      intro hc
      rcases List.mem_map.mp hc with ⟨q, hqm, hqa⟩
      have := List.find?_eq_none.mp (Option.not_isSome_iff_eq_none.mp hf) q hqm
      simp [hqa] at this
    simp [List.nodup_append, h, hna]

theorem bucketOf_foldl_addWork (w : Work) (k : String) :
    ∀ (as : List String) (d : Buckets),
      bucketOf (as.foldl (fun d2 a => dictAppend d2 a w) d) k =
        bucketOf d k ++ (as.filter (fun x => x == k)).map (fun _ => w) := by
  intro as
  induction as with
  | nil => intro d; simp
  | cons x rest ih =>
    intro d
    rw [List.foldl_cons, ih, bucketOf_dictAppend]
    by_cases h : k = x
    · subst h
      simp [List.filter_cons]
    · have hb : (x == k) = false := by
        rw [beq_eq_false_iff_ne]; exact fun hc => h hc.symm
      simp [List.filter_cons, hb, h]

theorem mem_keys_foldl_addWork (w : Work) (k : String) :
    ∀ (as : List String) (d : Buckets),
      (k ∈ (as.foldl (fun d2 a => dictAppend d2 a w) d).map Prod.fst ↔
        k ∈ d.map Prod.fst ∨ k ∈ as) := by
  intro as
  induction as with
  | nil => intro d; simp
  | cons x rest ih =>
    intro d
    rw [List.foldl_cons, ih, mem_keys_dictAppend]
    simp [List.mem_cons]
    tauto

theorem nodup_keys_foldl_addWork (w : Work) :
    ∀ (as : List String) (d : Buckets), (d.map Prod.fst).Nodup →
      ((as.foldl (fun d2 a => dictAppend d2 a w) d).map Prod.fst).Nodup := by
  intro as
  induction as with
  | nil => intro d h; exact h
  | cons x rest ih =>
    intro d h
    rw [List.foldl_cons]
    exact ih _ (nodup_keys_dictAppend d x w h)

theorem build_fold_decomp (works : List Work) :
    ∀ (d1 d2 : Buckets),
      works.foldl
        (fun acc w =>
          ((actressesOf w).foldl (fun d a => dictAppend d a w) acc.1,
           (tagsOf w).foldl (fun d g => dictAppend d g w) acc.2)) (d1, d2) =
      (works.foldl (fun d w => (actressesOf w).foldl (fun d2 a => dictAppend d2 a w) d) d1,
       works.foldl (fun d w => (tagsOf w).foldl (fun d2 g => dictAppend d2 g w) d) d2) := by
  induction works with
  | nil => intro d1 d2; rfl
  | cons w ws ih =>
    intro d1 d2
    rw [List.foldl_cons, List.foldl_cons, List.foldl_cons]
    exact ih _ _

theorem bucketOf_foldl_works (f : Work → List String) (k : String) :
    ∀ (works : List Work) (d : Buckets),
      bucketOf (works.foldl (fun d2 w => (f w).foldl (fun d3 a => dictAppend d3 a w) d2) d) k =
        bucketOf d k ++
          works.flatMap (fun w => ((f w).filter (fun x => x == k)).map (fun _ => w)) := by
  intro works
  induction works with
  | nil => intro d; simp
  | cons w ws ih =>
    intro d
    rw [List.foldl_cons, ih, List.flatMap_cons, bucketOf_foldl_addWork]
    rw [List.append_assoc]

theorem mem_keys_foldl_works (f : Work → List String) (k : String) :
    ∀ (works : List Work) (d : Buckets),
      (k ∈ ((works.foldl (fun d2 w => (f w).foldl (fun d3 a => dictAppend d3 a w) d2) d).map
          Prod.fst) ↔
        k ∈ d.map Prod.fst ∨ ∃ w ∈ works, k ∈ f w) := by
  intro works
  induction works with
  | nil => intro d; simp
  | cons w ws ih =>
    intro d
    rw [List.foldl_cons, ih, mem_keys_foldl_addWork]
    simp only [List.mem_cons]
    constructor
    · rintro ((h | h) | ⟨w2, hw2, hk2⟩)
      · exact Or.inl h
      · exact Or.inr ⟨w, Or.inl rfl, h⟩
      · exact Or.inr ⟨w2, Or.inr hw2, hk2⟩
    · rintro (h | ⟨w2, (rfl | hw2), hk2⟩)
      · exact Or.inl (Or.inl h)
      · exact Or.inl (Or.inr hk2)
      · exact Or.inr ⟨w2, hw2, hk2⟩

theorem nodup_keys_foldl_works (f : Work → List String) :
    ∀ (works : List Work) (d : Buckets), (d.map Prod.fst).Nodup →
      ((works.foldl (fun d2 w => (f w).foldl (fun d3 a => dictAppend d3 a w) d2) d).map
        Prod.fst).Nodup := by
  intro works
  induction works with
  | nil => intro d h; exact h
  | cons w ws ih =>
    intro d h
    rw [List.foldl_cons]
    exact ih _ (nodup_keys_foldl_addWork w _ d h)

theorem length_filter_beq_of_nodup (as : List String) (P : String) (h : as.Nodup) :
    (as.filter (fun x => x == P)).length = if P ∈ as then 1 else 0 := by
  induction as with
  | nil => simp
  | cons x rest ih =>
    rw [List.nodup_cons] at h
    by_cases hx : x = P
    · subst hx
      have hnr : x ∉ rest := h.1
      rw [List.filter_cons]
      simp only [beq_self_eq_true, if_true]
      rw [List.length_cons, ih h.2]
      simp [hnr]
    · have hb : (x == P) = false := by rw [beq_eq_false_iff_ne]; exact hx
      rw [List.filter_cons]
      simp only [hb, Bool.false_eq_true, if_false]
      rw [ih h.2]
      simp [List.mem_cons, Ne.symm hx]

theorem length_flatMap_filter (f : Work → List String) (k : String) :
    ∀ (works : List Work), (∀ w ∈ works, (f w).Nodup) →
      (works.flatMap (fun w => ((f w).filter (fun x => x == k)).map (fun _ => w))).length =
        (works.filter (fun w => (f w).contains k)).length := by
  intro works
  induction works with
  | nil => intro _; rfl
  | cons w ws ih =>
    intro h
    rw [List.flatMap_cons, List.length_append, List.length_map,
      length_filter_beq_of_nodup _ _ (h w (List.mem_cons_self w ws)), List.filter_cons,
      ih (fun w2 hw2 => h w2 (List.mem_cons_of_mem w hw2))]
    by_cases hk : k ∈ f w
    · have hc : (f w).contains k = true := List.elem_iff.mpr hk
      simp [hc, hk]
      omega
    · have hc : (f w).contains k = false := by
        rw [← Bool.not_eq_true]
        intro hcon
        exact hk (List.elem_iff.mp hcon)
      simp [hc, hk]

theorem build_indexes_eq (works : List Work) :
    build_indexes_from_works works =
      (works.foldl (fun d w => (actressesOf w).foldl (fun d2 a => dictAppend d2 a w) d) [],
       sortBy strLe
         ((works.foldl (fun d w => (actressesOf w).foldl (fun d2 a => dictAppend d2 a w) d)
           []).map Prod.fst),
       works.foldl (fun d w => (tagsOf w).foldl (fun d2 g => dictAppend d2 g w) d) [],
       sortBy strLe
         ((works.foldl (fun d w => (tagsOf w).foldl (fun d2 g => dictAppend d2 g w) d)
           []).map Prod.fst)) := by
  simp only [build_indexes_from_works]
  rw [build_fold_decomp]

theorem bucketOf_build_actresses (works : List Work) (P : String) :
    bucketOf (build_indexes_from_works works).1 P =
      works.flatMap (fun w => ((actressesOf w).filter (fun x => x == P)).map (fun _ => w)) := by
  rw [build_indexes_eq]
  rw [bucketOf_foldl_works actressesOf P works []]
  rfl

theorem bucketOf_build_tags (works : List Work) (P : String) :
    bucketOf (build_indexes_from_works works).2.2.1 P =
      works.flatMap (fun w => ((tagsOf w).filter (fun x => x == P)).map (fun _ => w)) := by
  rw [build_indexes_eq]
  rw [bucketOf_foldl_works tagsOf P works []]
  rfl

/-- Claim C5, corrected: each work is bucketed under every performer and tag
it lists and under no others, in catalog order; the key lists are sorted and
duplicate free and carry exactly the listed names; but a bucket receives one
entry per occurrence, so the bucket length for performer P equals the total
number of occurrences of P, which equals the number of works listing P only
when no single work lists P twice. -/
theorem build_indexes_spec (works : List Work) :
    (∀ P, bucketOf (build_indexes_from_works works).1 P =
      works.flatMap (fun w => ((actressesOf w).filter (fun x => x == P)).map (fun _ => w))) ∧
    (∀ P, bucketOf (build_indexes_from_works works).2.2.1 P =
      works.flatMap (fun w => ((tagsOf w).filter (fun x => x == P)).map (fun _ => w))) ∧
    (∀ P (w : Work), w ∈ bucketOf (build_indexes_from_works works).1 P ↔
      w ∈ works ∧ P ∈ actressesOf w) ∧
    (∀ P, (∀ w ∈ works, (actressesOf w).Nodup) →
      (bucketOf (build_indexes_from_works works).1 P).length =
        (works.filter (fun w => (actressesOf w).contains P)).length) ∧
    ((build_indexes_from_works works).2.1.Pairwise (fun a b => strLe a b = true) ∧
     (build_indexes_from_works works).2.1.Nodup ∧
     (∀ P, P ∈ (build_indexes_from_works works).2.1 ↔ ∃ w ∈ works, P ∈ actressesOf w)) ∧
    ((build_indexes_from_works works).2.2.2.Pairwise (fun a b => strLe a b = true) ∧
     (build_indexes_from_works works).2.2.2.Nodup ∧
     (∀ P, P ∈ (build_indexes_from_works works).2.2.2 ↔ ∃ w ∈ works, P ∈ tagsOf w)) := by
  have hnilA : (([] : Buckets).map Prod.fst).Nodup := by simp
  refine ⟨bucketOf_build_actresses works, bucketOf_build_tags works, ?_, ?_, ?_, ?_⟩
  · intro P w
    rw [bucketOf_build_actresses]
    constructor
    · intro h
      rcases List.mem_flatMap.mp h with ⟨w2, hw2, hmem⟩
      rcases List.mem_map.mp hmem with ⟨x, hx, rfl⟩
      rcases List.mem_filter.mp hx with ⟨hxm, hxP⟩
      have : x = P := beq_iff_eq.mp hxP
      subst this
      exact ⟨hw2, hxm⟩
    · rintro ⟨hw, hP⟩
      exact List.mem_flatMap.mpr
        ⟨w, hw, List.mem_map.mpr ⟨P, List.mem_filter.mpr ⟨hP, by simp⟩, rfl⟩⟩
  · intro P h
    rw [bucketOf_build_actresses]
    exact length_flatMap_filter actressesOf P works h
  · rw [build_indexes_eq]
    refine ⟨sortBy_sorted strLe strLe_trans strLe_total _, ?_, ?_⟩
    · exact (sortBy_perm strLe _).symm.nodup
        (nodup_keys_foldl_works actressesOf works [] hnilA)
    · intro P
      rw [(sortBy_perm strLe _).mem_iff, mem_keys_foldl_works actressesOf P works []]
      simp
  · rw [build_indexes_eq]
    refine ⟨sortBy_sorted strLe strLe_trans strLe_total _, ?_, ?_⟩
    · exact (sortBy_perm strLe _).symm.nodup
        (nodup_keys_foldl_works tagsOf works [] hnilA)
    · intro P
      rw [(sortBy_perm strLe _).mem_iff, mem_keys_foldl_works tagsOf P works []]
      simp

/-- Claim C5 counterexample: a work listing the same performer twice is
bucketed twice, so the bucket length exceeds the number of works whose
performer list contains that name. -/
theorem build_indexes_c5_cex :
    (bucketOf (build_indexes_from_works [exDup]).1 "A").length = 2 ∧
    ([exDup].filter (fun w => (actressesOf w).contains "A")).length = 1 := by decide

/-- Claim C5 witness: the duplicate-free count statement of the amended
claim at a concrete catalog. -/
theorem build_indexes_spec_witness :
    (bucketOf (build_indexes_from_works [exA]).1 "P").length =
      ([exA].filter (fun w => (actressesOf w).contains "P")).length :=
  (build_indexes_spec [exA]).2.2.2.1 "P" (by intro w hw; fin_cases hw; decide)

theorem mem_dedupAppend (cur : String) (x : String) :
    ∀ (ids acc : List String),
      (x ∈ dedupAppend cur acc ids ↔ x ∈ acc ∨ (x ∈ ids ∧ x ≠ cur)) := by
  intro ids
  induction ids with
  | nil => intro acc; simp [dedupAppend]
  | cons i rest ih =>
    intro acc
    show x ∈ dedupAppend cur
      (if i = cur then acc else if i ∈ acc then acc else acc ++ [i]) rest ↔ _
    rw [ih]
    by_cases hic : i = cur
    · subst hic
      simp only [if_pos rfl, List.mem_cons]
      constructor
      · rintro (h | ⟨h, hne⟩)
        · exact Or.inl h
        · exact Or.inr ⟨Or.inr h, hne⟩
      · rintro (h | ⟨(rfl | h), hne⟩)
        · exact Or.inl h
        · exact absurd rfl hne
        · exact Or.inr ⟨h, hne⟩
    · rw [if_neg hic]
      by_cases hia : i ∈ acc
      · rw [if_pos hia]
        simp only [List.mem_cons]
        constructor
        · rintro (h | ⟨h, hne⟩)
          · exact Or.inl h
          · exact Or.inr ⟨Or.inr h, hne⟩
        · rintro (h | ⟨(rfl | h), hne⟩)
          · exact Or.inl h
          · exact Or.inl hia
          · exact Or.inr ⟨h, hne⟩
      · rw [if_neg hia]
        simp only [List.mem_append, List.mem_cons, List.not_mem_nil, or_false]
        constructor
        · rintro ((h | rfl) | ⟨h, hne⟩)
          · exact Or.inl h
          · exact Or.inr ⟨Or.inl rfl, hic⟩
          · exact Or.inr ⟨Or.inr h, hne⟩
        · rintro (h | ⟨(rfl | h), hne⟩)
          · exact Or.inl (Or.inl h)
          · exact Or.inl (Or.inr rfl)
          · exact Or.inr ⟨h, hne⟩

theorem nodup_dedupAppend (cur : String) :
    ∀ (ids acc : List String), acc.Nodup → (dedupAppend cur acc ids).Nodup := by
  intro ids
  induction ids with
  | nil => intro acc h; exact h
  | cons i rest ih =>
    intro acc h
    show (dedupAppend cur (if i = cur then acc else if i ∈ acc then acc else acc ++ [i])
      rest).Nodup
    by_cases hic : i = cur
    · rw [if_pos hic]; exact ih acc h
    · rw [if_neg hic]
      by_cases hia : i ∈ acc
      · rw [if_pos hia]; exact ih acc h
      · rw [if_neg hia]
        apply ih
        simp [List.nodup_append, h, hia]

theorem mem_relatedIds (works : List Work) (current : Work) (x : String) :
    x ∈ relatedIds works current ↔
      x ≠ idStr current ∧ ∃ a ∈ actressesOf current, x ∈ actress_to_ids works a := by
  have hgen : ∀ (as : List String) (acc : List String),
      (x ∈ as.foldl (fun acc2 a => dedupAppend (idStr current) acc2 (actress_to_ids works a))
          acc ↔
        x ∈ acc ∨ ((∃ a ∈ as, x ∈ actress_to_ids works a) ∧ x ≠ idStr current)) := by
    intro as
    induction as with
    | nil => intro acc; simp
    | cons a rest ih =>
      intro acc
      rw [List.foldl_cons, ih, mem_dedupAppend]
      simp only [List.mem_cons]
      constructor
      · rintro ((h | ⟨h, hne⟩) | ⟨⟨a2, ha2, hx2⟩, hne⟩)
        · exact Or.inl h
        · exact Or.inr ⟨⟨a, Or.inl rfl, h⟩, hne⟩
        · exact Or.inr ⟨⟨a2, Or.inr ha2, hx2⟩, hne⟩
      · rintro (h | ⟨⟨a2, (rfl | ha2), hx2⟩, hne⟩)
        · exact Or.inl (Or.inl h)
        · exact Or.inl (Or.inr ⟨hx2, hne⟩)
        · exact Or.inr ⟨⟨a2, ha2, hx2⟩, hne⟩
  rw [relatedIds, hgen]
  simp only [List.not_mem_nil, false_or]
  tauto

theorem nodup_relatedIds (works : List Work) (current : Work) :
    (relatedIds works current).Nodup := by
  have hgen : ∀ (as : List String) (acc : List String), acc.Nodup →
      (as.foldl (fun acc2 a => dedupAppend (idStr current) acc2 (actress_to_ids works a))
        acc).Nodup := by
    intro as
    induction as with
    | nil => intro acc h; exact h
    | cons a rest ih =>
      intro acc h
      rw [List.foldl_cons]
      exact ih _ (nodup_dedupAppend _ _ _ h)
  exact hgen _ [] List.nodup_nil

theorem mem_actress_to_ids (works : List Work) (a wid : String) :
    wid ∈ actress_to_ids works a ↔
      ∃ w ∈ works, idStr w ≠ "" ∧ idStr w = wid ∧ a ≠ "" ∧ a ∈ actressesOf w := by
  unfold actress_to_ids
  rw [List.mem_flatMap]
  constructor
  · rintro ⟨w, hw, hmem⟩
    by_cases h : idStr w = ""
    · rw [if_pos h] at hmem
      exact absurd hmem (List.not_mem_nil wid)
    · rw [if_neg h] at hmem
      rcases List.mem_map.mp hmem with ⟨x, hx, rfl⟩
      rcases List.mem_filter.mp hx with ⟨hxm, hxc⟩
      have hx12 : x ≠ "" ∧ x = a := by simpa using hxc
      rcases hx12 with ⟨hx1, rfl⟩
      exact ⟨w, hw, h, rfl, hx1, hxm⟩
  · rintro ⟨w, hw, hne, rfl, ha, ham⟩
    refine ⟨w, hw, ?_⟩
    rw [if_neg hne]
    refine List.mem_map.mpr ⟨a, List.mem_filter.mpr ⟨ham, ?_⟩, rfl⟩
    simp [ha]

theorem works_by_id_some (works : List Work) (wid : String) (r : Work)
    (h : works_by_id works wid = some r) : r ∈ works ∧ idStr r ≠ "" ∧ idStr r = wid := by
  unfold works_by_id at h
  have hmem := List.mem_of_find?_eq_some h
  have hpred : (idStr r == wid) = true := by simpa using List.find?_some h
  rw [List.mem_reverse] at hmem
  rcases List.mem_filter.mp hmem with ⟨hmw, hval⟩
  exact ⟨hmw, bne_iff_ne.mp hval, beq_iff_eq.mp hpred⟩

theorem works_by_id_isSome (works : List Work) (w : Work)
    (hw : w ∈ works) (hne : idStr w ≠ "") : (works_by_id works (idStr w)).isSome = true := by
  unfold works_by_id
  rw [List.find?_isSome]
  refine ⟨w, ?_, by simp⟩
  rw [List.mem_reverse]
  exact List.mem_filter.mpr ⟨hw, bne_iff_ne.mpr hne⟩

theorem works_by_id_unique (works : List Work)
    (hids : ((works.filter (fun w => idStr w != "")).map idStr).Nodup)
    (w : Work) (hw : w ∈ works) (hne : idStr w ≠ "") :
    works_by_id works (idStr w) = some w := by
  cases hfind : works_by_id works (idStr w) with
  | none =>
    have := works_by_id_isSome works w hw hne
    rw [hfind] at this
    exact absurd this (by simp)
  | some r =>
    rcases works_by_id_some works (idStr w) r hfind with ⟨hrm, hrne, hrid⟩
    have hrf : r ∈ works.filter (fun w2 => idStr w2 != "") :=
      List.mem_filter.mpr ⟨hrm, bne_iff_ne.mpr hrne⟩
    have hwf : w ∈ works.filter (fun w2 => idStr w2 != "") :=
      List.mem_filter.mpr ⟨hw, bne_iff_ne.mpr hne⟩
    have := List.inj_on_of_nodup_map hids hrf hwf hrid
    rw [this]

theorem mem_get_related_works (works : List Work) (current : Work) (r : Work)
    (hr : r ∈ get_related_works works current 12) :
    ∃ wid, wid ∈ relatedIds works current ∧ works_by_id works wid = some r := by
  unfold get_related_works at hr
  by_cases hcur : actressesOf current = []
  · rw [if_pos hcur] at hr
    exact absurd hr (List.not_mem_nil r)
  · rw [if_neg hcur] at hr
    have hr2 : r ∈ sortDescBy dateOf
        ((relatedIds works current).filterMap (works_by_id works)) :=
      (List.take_sublist _ _).subset hr
    unfold sortDescBy at hr2
    have hr3 := (sortBy_perm _ _).mem_iff.mp hr2
    rcases List.mem_filterMap.mp hr3 with ⟨wid, hwid, hsome⟩
    exact ⟨wid, hwid, hsome⟩

/-- Claim C1: for the pre-built performer id lists, `get_related_works`
returns the first-seen dedupe of the candidate ids (exactly the valid ids of
works sharing a nonempty performer name with the current work, the current
id excluded), looked up, stable-sorted by release date descending and
truncated to the limit; the result never contains the current id, never
exceeds the limit, and an empty performer list yields the empty sequence.
The id uniqueness hypothesis is the data-model invariant that ids are unique
within the catalog. -/
theorem get_related_works_spec (works : List Work) (current : Work)
    (hids : ((works.filter (fun w => idStr w != "")).map idStr).Nodup) :
    (actressesOf current = [] → get_related_works works current 12 = []) ∧
    (get_related_works works current 12).length ≤ 12 ∧
    (∀ r ∈ get_related_works works current 12, idStr r ≠ idStr current) ∧
    (∀ wid, wid ∈ relatedIds works current ↔
      wid ≠ idStr current ∧ ∃ a ∈ actressesOf current, wid ∈ actress_to_ids works a) ∧
    (relatedIds works current).Nodup ∧
    (∀ r ∈ get_related_works works current 12,
      r ∈ works ∧ idStr r ≠ "" ∧ ∃ a ∈ actressesOf current, a ≠ "" ∧ a ∈ actressesOf r) ∧
    (∀ w2 ∈ works, idStr w2 ≠ "" → idStr w2 ≠ idStr current →
      (∃ a ∈ actressesOf current, a ≠ "" ∧ a ∈ actressesOf w2) →
      idStr w2 ∈ relatedIds works current) ∧
    (get_related_works works current 12).Pairwise
      (fun x y => strLe (dateOf y) (dateOf x) = true) ∧
    (actressesOf current ≠ [] → get_related_works works current 12 =
      (sortDescBy dateOf ((relatedIds works current).filterMap (works_by_id works))).take
        12) := by
  refine ⟨?_, ?_, ?_, fun wid => mem_relatedIds works current wid,
    nodup_relatedIds works current, ?_, ?_, ?_, ?_⟩
  · intro h
    unfold get_related_works
    rw [if_pos h]
  · by_cases h : actressesOf current = []
    · simp [get_related_works, h]
    · simp only [get_related_works, if_neg h]
      exact List.length_take_le _ _
  · intro r hr
    rcases mem_get_related_works works current r hr with ⟨wid, hwid, hsome⟩
    rcases works_by_id_some works wid r hsome with ⟨_, _, hid⟩
    rw [hid]
    exact ((mem_relatedIds works current wid).mp hwid).1
  · intro r hr
    rcases mem_get_related_works works current r hr with ⟨wid, hwid, hsome⟩
    rcases works_by_id_some works wid r hsome with ⟨hrm, hrne, hrid⟩
    rcases (mem_relatedIds works current wid).mp hwid with ⟨_, a, ha, hwa⟩
    rcases (mem_actress_to_ids works a wid).mp hwa with ⟨w2, hw2m, hw2ne, hw2id, hane, haw2⟩
    have hw2f : w2 ∈ works.filter (fun w => idStr w != "") :=
      List.mem_filter.mpr ⟨hw2m, bne_iff_ne.mpr hw2ne⟩
    have hrf : r ∈ works.filter (fun w => idStr w != "") :=
      List.mem_filter.mpr ⟨hrm, bne_iff_ne.mpr hrne⟩
    have hw2r : w2 = r :=
      List.inj_on_of_nodup_map hids hw2f hrf (hw2id.trans hrid.symm)
    subst hw2r
    exact ⟨hrm, hrne, a, ha, hane, haw2⟩
  · rintro w2 hw2 hne hneid ⟨a, ha, hane, haw2⟩
    exact (mem_relatedIds works current (idStr w2)).mpr
      ⟨hneid, a, ha, (mem_actress_to_ids works a (idStr w2)).mpr
        ⟨w2, hw2, hne, rfl, hane, haw2⟩⟩
  · by_cases h : actressesOf current = []
    · simp [get_related_works, h]
    · simp only [get_related_works, if_neg h]
      apply List.Pairwise.take
      unfold sortDescBy
      exact sortBy_sorted _
        (fun a b c hab hbc => strLe_trans (dateOf c) (dateOf b) (dateOf a) hbc hab)
        (fun a b => strLe_total (dateOf b) (dateOf a)) _
  · intro h
    unfold get_related_works
    rw [if_neg h]

/-- Claim C1 witness: the spec instantiated on a concrete three-work catalog
sharing one performer. -/
theorem get_related_works_spec_witness :
    (get_related_works [exA, exB, exC] exA 12).length ≤ 12 :=
  (get_related_works_spec [exA, exB, exC] exA (by decide)).2.1

/-- Claim C9: the emitted output tree is a pure function of the site name
and catalog; it does not depend on the ambient run state parameter (the
source reads no clock and injects no run-dependent data), so re-running the
build on identical input reproduces the identical tree. -/
theorem emitSite_deterministic (site_name : String) (works : List Work) (t1 t2 : Nat) :
    emitSite site_name works t1 = emitSite site_name works t2 := rfl

/-- Claim C3 counterexample: paginating the empty catalog yields zero pages,
not one, and no `pages/1` output path is emitted. -/
theorem paginate_empty_c3_cex :
    (chunk ([] : List Work) 50).length = 0 ∧
    ((emitSite "Catalog" ([] : List Work) 0).map Prod.fst).contains
      ["pages", "1", "index.html"] = false := by decide

/-- Claim C3, corrected: chunking the empty catalog returns the empty list
of pages, so nothing is emitted under `pages/` (not even `pages/1`), even
though `total_pages` is still computed as `max 1 0 = 1`; a nonempty catalog
does emit `pages/1`. -/
theorem paginate_empty_spec :
    chunk ([] : List Work) 50 = [] ∧
    max 1 (chunk ([] : List Work) 50).length = 1 ∧
    ["pages", "1", "index.html"] ∉ (emitSite "Catalog" ([] : List Work) 0).map Prod.fst ∧
    (∀ site now (works : List Work), works ≠ [] →
      ["pages", "1", "index.html"] ∈ (emitSite site works now).map Prod.fst) := by
  refine ⟨rfl, rfl, by decide, ?_⟩
  intro site now works hne
  have hws : sort_works_newest_first works ≠ [] := by
    intro hc
    have hlen := (sortBy_perm (fun x y => strLe (dateOf y) (dateOf x)) works).length_eq
    unfold sort_works_newest_first sortDescBy at hc
    rw [hc] at hlen
    exact hne (List.length_eq_zero.mp hlen.symm)
  have hchunk := chunk_cons 50 (by omega) (sort_works_newest_first works) hws
  simp only [emitSite, List.map_append, List.mem_append]
  refine Or.inl (Or.inl (Or.inl (Or.inl (Or.inl (Or.inr ?_)))))
  rw [List.map_map]
  refine List.mem_map.mpr ⟨(1, (sort_works_newest_first works).take 50), ?_, ?_⟩
  · rw [hchunk]
    exact List.mem_cons_self _ _
  · show ["pages", toString (1 : Nat), "index.html"] = ["pages", "1", "index.html"]
    decide

/-- Claim C3 witness: a nonempty catalog does emit the first listing
page. -/
theorem paginate_empty_spec_witness :
    ["pages", "1", "index.html"] ∈ (emitSite "S" [exA] 0).map Prod.fst :=
  paginate_empty_spec.2.2.2 "S" 0 [exA] (by decide)

/-- Claim C4 counterexample: a work with absent id listing a performer is
still bucketed under that performer by the index builder (and therefore
appears on that performer's listing page). -/
theorem empty_id_c4_cex :
    exNoId ∈ bucketOf (build_indexes_from_works [exNoId]).1 "A" := by decide

/-- Claim C4, corrected: a work with absent or empty id never appears in
`works_by_id`, is never referenced by the performer id lists used for
related-works resolution, is excluded from the search index, and receives no
output page (all silently, with no error path in the model); however the
performer and genre index buckets do include it, so it does appear on
per-performer and per-genre listing pages. -/
theorem empty_id_excluded (works : List Work) (w : Work) (h : idStr w = "") :
    (∀ wid, works_by_id works wid ≠ some w) ∧
    (∀ a wid, wid ∈ actress_to_ids works a → wid ≠ "") ∧
    (∀ r ∈ make_search_index works, ∃ w2 ∈ works, idStr w2 ≠ "" ∧ r = toSearchRecord w2) ∧
    (∀ site now, ["works", idStr w, "index.html"] ∉ (emitSite site works now).map
      Prod.fst) := by
  refine ⟨?_, ?_, ?_, ?_⟩
  · intro wid hc
    rcases works_by_id_some works wid w hc with ⟨_, hne, _⟩
    exact hne h
  · intro a wid hm
    rcases (mem_actress_to_ids works a wid).mp hm with ⟨w2, _, hne, hid, _, _⟩
    rw [← hid]
    exact hne
  · intro r hr
    rw [make_search_index_eq] at hr
    rcases List.mem_map.mp hr with ⟨w2, hw2f, rfl⟩
    rcases List.mem_filter.mp hw2f with ⟨hw2, hval⟩
    exact ⟨w2, hw2, bne_iff_ne.mp hval, rfl⟩
  · intro site now hc
    rw [h] at hc
    simp only [emitSite, List.map_append, List.mem_append] at hc
    rcases hc with ((((((h1 | h2) | h3) | h4) | h5) | h6) | h7)
    · rcases List.mem_map.mp h1 with ⟨p, hp, heq⟩
      simp only [List.mem_cons, List.not_mem_nil, or_false] at hp
      rcases hp with rfl | rfl | rfl
      · have heq2 : ["assets", "works_index.json"] = ["works", "", "index.html"] := heq
        exact absurd heq2 (by decide)
      · have heq2 : ["index.html"] = ["works", "", "index.html"] := heq
        exact absurd heq2 (by decide)
      · have heq2 : ["search", "index.html"] = ["works", "", "index.html"] := heq
        exact absurd heq2 (by decide)
    · rw [List.map_map] at h2
      rcases List.mem_map.mp h2 with ⟨p, _, heq⟩
      have heq2 : ["pages", toString p.1, "index.html"] = ["works", "", "index.html"] := heq
      injection heq2 with hhd _
      exact absurd hhd (by decide)
    · rcases List.mem_map.mp h3 with ⟨e, he, heq⟩
      rcases List.mem_filterMap.mp he with ⟨w2, _, hsome⟩
      by_cases hid : idStr w2 = ""
      · rw [if_pos hid] at hsome
        exact Option.noConfusion hsome
      · rw [if_neg hid] at hsome
        have he2 := Option.some.inj hsome
        subst he2
        have heq2 : ["works", idStr w2, "index.html"] = ["works", "", "index.html"] := heq
        injection heq2 with _ htl
        injection htl with hmid _
        exact hid hmid
    · rcases List.mem_map.mp h4 with ⟨p, hp, heq⟩
      simp only [List.mem_cons, List.not_mem_nil, or_false] at hp
      subst hp
      have heq2 : ["actresses", "index.html"] = ["works", "", "index.html"] := heq
      exact absurd heq2 (by decide)
    · rw [List.map_map] at h5
      rcases List.mem_map.mp h5 with ⟨a, _, heq⟩
      have heq2 : ["actresses", slugify_simple a, "index.html"] =
        ["works", "", "index.html"] := heq
      injection heq2 with hhd _
      exact absurd hhd (by decide)
    · rcases List.mem_map.mp h6 with ⟨p, hp, heq⟩
      simp only [List.mem_cons, List.not_mem_nil, or_false] at hp
      subst hp
      have heq2 : ["genres", "index.html"] = ["works", "", "index.html"] := heq
      exact absurd heq2 (by decide)
    · rw [List.map_map] at h7
      rcases List.mem_map.mp h7 with ⟨g, _, heq⟩
      have heq2 : ["genres", slugify_simple g, "index.html"] =
        ["works", "", "index.html"] := heq
      injection heq2 with hhd _
      exact absurd hhd (by decide)

/-- Claim C4 witness: the amended claim instantiated on a concrete catalog
containing an id-less work. -/
theorem empty_id_excluded_witness :
    works_by_id [exNoId] "x" ≠ some exNoId :=
  (empty_id_excluded [exNoId] exNoId rfl).1 "x"

end Build
